import Mathlib

/-!
Verification development for the Champ Timer tournament tracker
(`champ_timer_logger.py`, command-line front end, and `champ_timer_gui.py`,
graphical front end).  The heat-timing core — line framing, timer-line
parsing, winner resolution, competitor statistics, standings ranking and
the persisted CSV rows — is embedded shallowly below.  Machine floats are
modelled as exact rationals (`ℚ`); the timer emits 4-decimal readings and
all arithmetic performed by the program (comparison, min, sum, division)
is modelled exactly.  Partial Python constructs (dict lookup, regex search)
are modelled with `Option` and total recursion.
-/

namespace ChampTimer

/-- One CSV cell as produced by `csv.writer`: a string, a float, or an int. -/
inductive Cell where
  | str : String → Cell
  | num : ℚ → Cell
  | int : ℕ → Cell
deriving DecidableEq

/-- One entry of `competitors[name]['heats']`: the dict
`{'heat': ..., 'lane': ..., 'time': ...}` appended by the stats update. -/
structure HeatRecord where
  heat : ℕ
  lane : ℕ
  time : ℚ
deriving DecidableEq

/-- The per-competitor record stored in `self.competitors[name]`. -/
structure CompetitorStats where
  heats : List HeatRecord
  best_time : Option ℚ
  total_time : ℚ
  races_count : ℕ
deriving DecidableEq

/-- The value every competitor is registered with:
`{'heats': [], 'best_time': None, 'total_time': 0.0, 'races_count': 0}`. -/
def freshStats : CompetitorStats :=
  { heats := [], best_time := none, total_time := 0, races_count := 0 }

/-- The competitor ledger `self.competitors`: a Python dict, modelled as an
association list in insertion (registration) order. -/
abbrev Ledger := List (String × CompetitorStats)

/-- Dict lookup `self.competitors.get(X)` on the ledger. -/
def lookupName (X : String) : Ledger → Option CompetitorStats
  | [] => none
  | p :: l => if p.1 = X then some p.2 else lookupName X l

/-- Dict lookup `self.current_heat_assignments.get(lane)`. -/
def lookupLane (lane : ℕ) : List (ℕ × String) → Option String
  | [] => none
  | p :: l => if p.1 = lane then some p.2 else lookupLane lane l

/-! ## Timer line parsing (`parse_timer_data`)

The source compiles `re.findall(r'(\d+\.?\d{4})', data_line)` and converts
the first four matches with `float`.  `re.findall` scans left to right,
matching at the earliest possible start position; at a given position the
regex `\d+\.?\d{4}` greedily consumes the digit run (backtracking from the
full run down), then greedily tries the optional dot, then requires exactly
four more digits.  `matchLen s k` tries the continuation `\.?\d{4}` after
`k` digits have been consumed; `tryFrom` backtracks `k` from the full digit
run length down to 1; `findallF` carries fuel (each step consumes at least
one character, so `s.length` fuel suffices). -/

/-- Check that the next four characters exist and are digits (`\d{4}`). -/
def fourDigits (r : List Char) : Bool :=
  decide ((r.take 4).length = 4) && (r.take 4).all Char.isDigit

/-- Try to finish a regex match of `\d+\.?\d{4}` when the `\d+` part has
consumed `k` characters of `s`: first the greedy branch with the dot, then
the branch without it.  Returns the total match length. -/
def matchLen (s : List Char) (k : ℕ) : Option ℕ :=
  (match s.drop k with
   | '.' :: r2 => if fourDigits r2 then some (k + 5) else none
   | _ => none) <|>
  (if fourDigits (s.drop k) then some (k + 4) else none)

/-- Backtrack the greedy `\d+`: try `k` consumed digits, then `k - 1`, … -/
def tryFrom (s : List Char) : ℕ → Option ℕ
  | 0 => none
  | k + 1 => matchLen s (k + 1) <|> tryFrom s k

/-- Length of the regex match of `\d+\.?\d{4}` starting at the head of `s`,
if any. -/
def matchAt (s : List Char) : Option ℕ :=
  tryFrom s (s.takeWhile Char.isDigit).length

/-- Fueled worker for `re.findall`: emit the match at the current position
and continue after it, or slide one character right. -/
def findallF : ℕ → List Char → List (List Char)
  | 0, _ => []
  | _, [] => []
  | fuel + 1, c :: rest =>
    match matchAt (c :: rest) with
    | some n => (c :: rest).take n :: findallF fuel ((c :: rest).drop n)
    | none => findallF fuel rest

/-- `re.findall(r'(\d+\.?\d{4})', s)`: all non-overlapping matches, left to
right.  Every match consumes at least one character, so `s.length` fuel is
enough. -/
def findall (s : List Char) : List (List Char) :=
  findallF s.length s

/-- Value of a digit list read in base 10. -/
def digitsToNat (l : List Char) : ℕ :=
  l.foldl (fun n c => 10 * n + (c.toNat - '0'.toNat)) 0

/-- `float(match)` on a matched token (digits, or digits-dot-4-digits),
modelled exactly in `ℚ`: the value of `"d.ffff"` is `d + ffff/10000`,
written as one normalized fraction. -/
def matchToRat (m : List Char) : ℚ :=
  let d := m.takeWhile Char.isDigit
  match m.drop d.length with
  | '.' :: frac => mkRat (digitsToNat d * 10000 + digitsToNat frac) 10000
  | _ => (digitsToNat d : ℚ)

/-- `parse_timer_data` (identical in both front ends): a 4-slot array of
optional times, the first at most four matches assigned positionally to
lanes 1–4, remaining slots `None`.  The Python body cannot raise (the
`try`/`except` is dead for string input), so the model is a total
function. -/
def parse_timer_data (data_line : String) : List (Option ℚ) :=
  let ms := (findall data_line.toList).take 4
  ms.map (fun m => some (matchToRat m)) ++ List.replicate (4 - ms.length) none

/-- Decide whether a whole token matches the pattern `\d+\.?\d{4}` with
nothing left over: one or more digits, then either nothing (in which case
the total length must be at least five, four trailing digits being
required) or a dot followed by exactly four digits. -/
def patternFullMatch (m : List Char) : Bool :=
  let d := m.takeWhile Char.isDigit
  decide (1 ≤ d.length) &&
  (match m.drop d.length with
   | [] => decide (5 ≤ d.length)
   | '.' :: frac => decide (frac.length = 4) && frac.all Char.isDigit
   | _ => false)

/-- Whitespace-separated tokens of a line (used only to state the claim's
token-based reading of the parser). -/
def tokensOf (s : List Char) : List (List Char) :=
  let p := s.foldl
    (fun (acc : List (List Char) × List Char) c =>
      if c.isWhitespace then
        match acc.2 with
        | [] => (acc.1, [])
        | w => (acc.1 ++ [w.reverse], [])
      else (acc.1, c :: acc.2))
    ([], [])
  match p.2 with
  | [] => p.1
  | w => p.1 ++ [w.reverse]

/-- Modelled from the claim's words (not from the source): the parser as the
claim describes it, returning exactly the whitespace tokens of the line
that fully match the pattern, in order, capped at four, assigned
positionally to lanes. -/
def claimed_parse_timer_data (data_line : String) : List (Option ℚ) :=
  let ms := ((tokensOf data_line.toList).filter patternFullMatch).take 4
  ms.map (fun m => some (matchToRat m)) ++ List.replicate (4 - ms.length) none

/-! ## Winner resolution (`find_winner`) -/

/-- The list comprehension
`[(i+1, t) for i, t in enumerate(times) if t is not None]`, with the running
index made explicit. -/
def validTimesFrom (i : ℕ) : List (Option ℚ) → List (ℕ × ℚ)
  | [] => []
  | none :: ts => validTimesFrom (i + 1) ts
  | some t :: ts => (i + 1, t) :: validTimesFrom (i + 1) ts

/-- Valid (lane, time) pairs of a 4-slot time array, lanes numbered from 1. -/
def validTimes (times : List (Option ℚ)) : List (ℕ × ℚ) :=
  validTimesFrom 0 times

/-- `find_winner`: `min(valid_times, key=lambda x: x[1])`, or no winner when
every slot is absent.  Python's `min` keeps the first element among equal
keys, which the fold reproduces (`if y.2 < acc.2` strictly). -/
def find_winner (times : List (Option ℚ)) : Option (ℕ × ℚ) :=
  match validTimes times with
  | [] => none
  | x :: xs => some (xs.foldl (fun acc y => if y.2 < acc.2 then y else acc) x)

/-! ## Line framing

The listening loops in both front ends accumulate decoded chunks into
`buffer` and run
`while '\n' in buffer or '\r' in buffer:` —
splitting at the first `'\n'` whenever the buffer contains one, and only
otherwise at the first `'\r'`.  Each extracted line is `strip`ped and
dropped when empty.  The loop body consumes at least the delimiter
character, so `buffer.length` fuel bounds its iterations. -/

/-- `buffer.split(c, 1)`: the part before the first occurrence of `c` and
the part after it (the whole buffer and `[]` when `c` is absent). -/
def splitFirst (c : Char) : List Char → List Char × List Char
  | [] => ([], [])
  | x :: xs =>
    if x = c then ([], xs)
    else
      let p := splitFirst c xs
      (x :: p.1, p.2)

/-- Fueled worker for the framing `while` loop. -/
def extractF : ℕ → List Char → List (List Char) × List Char
  | 0, buf => ([], buf)
  | fuel + 1, buf =>
    if '\n' ∈ buf then
      let p := splitFirst '\n' buf
      let r := extractF fuel p.2
      (p.1 :: r.1, r.2)
    else if '\r' ∈ buf then
      let p := splitFirst '\r' buf
      let r := extractF fuel p.2
      (p.1 :: r.1, r.2)
    else ([], buf)

/-- Run the framing loop on a buffer: the raw (untrimmed) lines extracted
and the carry-over remainder that stays buffered. -/
def extractLines (buf : List Char) : List (List Char) × List Char :=
  extractF buf.length buf

/-- Python `str.strip()`: drop leading and trailing whitespace. -/
def strip (l : List Char) : List Char :=
  ((l.dropWhile Char.isWhitespace).reverse.dropWhile Char.isWhitespace).reverse

/-- The lines a buffer yields after the in-loop `line.strip()` and the
`if line:` guard. -/
def frameLines (buf : List Char) : List (List Char) :=
  ((extractLines buf).1.map strip).filter (fun l => !l.isEmpty)

/-- Feed a sequence of chunks through the framer, carrying the buffer
across chunks exactly as the listening loop does; returns all raw lines
produced and the final buffered remainder. -/
def feedChunks (buf : List Char) : List (List Char) → List (List Char) × List Char
  | [] => ([], buf)
  | c :: cs =>
    let e := extractLines (buf ++ c)
    let r := feedChunks e.2 cs
    (e.1 ++ r.1, r.2)

/-- Modelled from the claim's words (not from the source): split the buffer
at the first occurrence of either delimiter, whichever of `'\n'` and `'\r'`
comes first. -/
def splitFirstEither : List Char → List Char × List Char
  | [] => ([], [])
  | x :: xs =>
    if x = '\n' ∨ x = '\r' then ([], xs)
    else
      let p := splitFirstEither xs
      (x :: p.1, p.2)

/-- Modelled from the claim's words: fueled framing loop that always splits
at the earliest delimiter of either kind. -/
def extractEitherF : ℕ → List Char → List (List Char) × List Char
  | 0, buf => ([], buf)
  | fuel + 1, buf =>
    if '\n' ∈ buf ∨ '\r' ∈ buf then
      let p := splitFirstEither buf
      let r := extractEitherF fuel p.2
      (p.1 :: r.1, r.2)
    else ([], buf)

/-- Modelled from the claim's words: the claim's framing of one buffer. -/
def extractLinesEither (buf : List Char) : List (List Char) × List Char :=
  extractEitherF buf.length buf

/-! ## Competitor ledger update (`update_competitor_stats`) -/

/-- Inputs of one heat update: the lane assignments and heat number current
while the heat was listened for, and the parsed 4-slot time array. -/
structure HeatInput where
  assignments : List (ℕ × String)
  times : List (Option ℚ)
  heatNo : ℕ

/-- The per-lane mutation of one competitor's record: append the heat
record, bump `races_count`, add to `total_time`, and keep `best_time`
minimal (`if best_time is None or time_val < best_time`). -/
def applyTime (heatNo lane : ℕ) (t : ℚ) (s : CompetitorStats) : CompetitorStats :=
  { heats := s.heats ++ [{ heat := heatNo, lane := lane, time := t }],
    races_count := s.races_count + 1,
    total_time := s.total_time + t,
    best_time :=
      match s.best_time with
      | none => some t
      | some b => if t < b then some t else some b }

/-- In-place mutation of `self.competitors[name]` through function `f`. -/
def updateCompetitor (name : String) (f : CompetitorStats → CompetitorStats) (l : Ledger) : Ledger :=
  l.map (fun p => if p.1 = name then (p.1, f p.2) else p)

/-- One iteration of the `for lane in range(1, 5)` loop: the lane must have
an assignment and a present time to mutate anything. -/
def stepLane (h : HeatInput) (l : Ledger) (lane : ℕ) : Ledger :=
  match lookupLane lane h.assignments, h.times.getD (lane - 1) none with
  | some c, some t => updateCompetitor c (applyTime h.heatNo lane t) l
  | _, _ => l

/-- The whole `update_competitor_stats` loop over lanes 1–4 applied to the
competitor ledger. -/
def applyHeatInput (l : Ledger) (h : HeatInput) : Ledger :=
  [1, 2, 3, 4].foldl (stepLane h) l

/-- The mutable fields of the tracker object that the stats update can see:
`self.competitors`, `self.current_heat_assignments`, `self.heat_number`. -/
structure TournamentState where
  competitors : Ledger
  current_heat_assignments : List (ℕ × String)
  heat_number : ℕ

/-- `update_competitor_stats(self, times)`: mutates only
`self.competitors`. -/
def update_competitor_stats (st : TournamentState) (times : List (Option ℚ)) : TournamentState :=
  { st with
    competitors :=
      applyHeatInput st.competitors
        { assignments := st.current_heat_assignments,
          times := times,
          heatNo := st.heat_number } }

/-- The time credited to competitor `X` by one lane of a heat: present only
when the lane is assigned to `X` and its time slot is present. -/
def laneCredit (X : String) (h : HeatInput) (lane : ℕ) : Option ℚ :=
  match lookupLane lane h.assignments, h.times.getD (lane - 1) none with
  | some c, some t => if c = X then some t else none
  | _, _ => none

/-- The (lane, time) pairs credited to `X` by one lane, keeping the lane
for the heat record. -/
def laneCreditPair (X : String) (h : HeatInput) (lane : ℕ) : Option (ℕ × ℚ) :=
  match lookupLane lane h.assignments, h.times.getD (lane - 1) none with
  | some c, some t => if c = X then some (lane, t) else none
  | _, _ => none

/-- All times one heat credits to competitor `X`, in lane order. -/
def creditedTimes (X : String) (h : HeatInput) : List ℚ :=
  [1, 2, 3, 4].filterMap (laneCredit X h)

/-- The competitors a heat update mutates: those assigned to a lane whose
time slot is present. -/
def creditedNames (h : HeatInput) : List String :=
  [1, 2, 3, 4].filterMap (fun lane =>
    match lookupLane lane h.assignments, h.times.getD (lane - 1) none with
    | some c, some _ => some c
    | _, _ => none)

/-- Running minimum of a list of times on top of a starting optional best,
exactly as the repeated `if best_time is None or time_val < best_time`
update computes it. -/
def bestAcc (b : Option ℚ) (ts : List ℚ) : Option ℚ :=
  ts.foldl
    (fun acc t =>
      match acc with
      | none => some t
      | some v => if t < v then some t else some v)
    b

/-- The (lane, time) pairs a single heat credits to `X`, over the four
lanes in loop order. -/
def creditedPairs (X : String) (h : HeatInput) : List (ℕ × ℚ) :=
  [1, 2, 3, 4].filterMap (laneCreditPair X h)

/-- The heat records a single heat appends to `X`'s `heats` list. -/
def creditedRecords (X : String) (h : HeatInput) : List HeatRecord :=
  (creditedPairs X h).map (fun p => { heat := h.heatNo, lane := p.1, time := p.2 })

/-- Fold a list of credited (lane, time) pairs into a stats record, one
`applyTime` per pair — the cumulative effect of one heat on one
competitor. -/
def statsFold (heatNo : ℕ) (s : CompetitorStats) (ps : List (ℕ × ℚ)) : CompetitorStats :=
  ps.foldl (fun st p => applyTime heatNo p.1 p.2 st) s

/-! ## Standings ranking and snapshot rows (`save_standings`) -/

/-- Sort key used by `sorted(self.competitors.items(), key=...)`:
`best_time` when present, else the sentinel `999.0`. -/
def sKey (p : String × CompetitorStats) : ℚ :=
  p.2.best_time.getD 999

/-- Stable insertion of one item into a list sorted by `sKey` (inserted
before the first item of key not smaller, so earlier-registered items stay
first among equal keys). -/
def insertByKey (x : String × CompetitorStats) : Ledger → Ledger
  | [] => [x]
  | y :: ys => if sKey x ≤ sKey y then x :: y :: ys else y :: insertByKey x ys

/-- `sorted(self.competitors.items(), key=lambda x: x[1]['best_time'] if
x[1]['best_time'] is not None else 999.0)` — Python's sort is stable, and a
stable sort by a total key is extensionally unique, so stable insertion
sort models it. -/
def sorted_competitors : Ledger → Ledger
  | [] => []
  | x :: xs => insertByKey x (sorted_competitors xs)

/-- The best-time cell of a standings row:
`stats['best_time'] if stats['best_time'] else ''` — note the truthiness
test, under which both `None` and `0.0` print as the empty string. -/
def bestCell (s : CompetitorStats) : Cell :=
  match s.best_time with
  | none => Cell.str ""
  | some b => if b = 0 then Cell.str "" else Cell.num b

/-- The average-time cell of a standings row: `total_time / races_count`
when `races_count > 0`, else the empty string (no division happens). -/
def avgCell (s : CompetitorStats) : Cell :=
  if s.races_count > 0 then Cell.num (s.total_time / (s.races_count : ℚ))
  else Cell.str ""

/-- One data row of the standings snapshot:
`[rank, name, best, avg, races_count]`. -/
def standingsDataRow (rank : ℕ) (p : String × CompetitorStats) : List Cell :=
  [Cell.int rank, Cell.str p.1, bestCell p.2, avgCell p.2, Cell.int p.2.races_count]

/-- The full rewritten standings snapshot: header row, then one row per
competitor in sorted order, ranks counted from 1. -/
def save_standings_rows (l : Ledger) : List (List Cell) :=
  ([Cell.str "Rank", Cell.str "Name", Cell.str "Best Time",
    Cell.str "Average Time", Cell.str "Total Races"]) ::
  ((sorted_competitors l).enum.map (fun ip => standingsDataRow (ip.1 + 1) ip.2))

/-! ## Heat log rows -/

/-- Time cell of a heat row: the float when present, else `""`. -/
def timeCell : Option ℚ → Cell
  | some t => Cell.num t
  | none => Cell.str ""

/-- Winner cell: `if winner_lane:` is a truthiness test, so `None` (and a
hypothetical lane 0) yield `""`, otherwise the assigned name (or `""` for
an unassigned lane). -/
def winnerCell (assignments : List (ℕ × String)) : Option ℕ → Cell
  | none => Cell.str ""
  | some wl => if wl = 0 then Cell.str "" else Cell.str ((lookupLane wl assignments).getD "")

/-- The row appended by the command-line logger's `log_heat_results`: the
current `self.heat_number` (incremented only after logging), a timestamp,
per-lane name/time pairs, and the winner cell. -/
def log_heat_results_row (heat_number : ℕ) (timestamp : String)
    (assignments : List (ℕ × String)) (times : List (Option ℚ))
    (winner_lane : Option ℕ) : List Cell :=
  [Cell.int heat_number, Cell.str timestamp] ++
  ([1, 2, 3, 4].flatMap (fun lane =>
    [Cell.str ((lookupLane lane assignments).getD ""),
     timeCell (times.getD (lane - 1) none)])) ++
  [winnerCell assignments winner_lane]

/-- The row appended by the GUI's `save_heat_results`: identical except the
first cell is `self.heat_number - 1` — and the GUI also increments
`heat_number` only after this call. -/
def save_heat_results_row (heat_number : ℕ) (timestamp : String)
    (assignments : List (ℕ × String)) (times : List (Option ℚ))
    (winner_lane : Option ℕ) : List Cell :=
  [Cell.int (heat_number - 1), Cell.str timestamp] ++
  ([1, 2, 3, 4].flatMap (fun lane =>
    [Cell.str ((lookupLane lane assignments).getD ""),
     timeCell (times.getD (lane - 1) none)])) ++
  [winnerCell assignments winner_lane]

/-! ## Registration -/

/-- The GUI's `add_competitor` (competitor name already `.strip()`ed):
empty names and duplicate names are rejected without touching the ledger,
otherwise a fresh entry is appended. -/
def add_competitor (name : String) (l : Ledger) : Ledger :=
  if name = "" then l
  else if l.any (fun p => p.1 == name) then l
  else l ++ [(name, freshStats)]

/-- The registration step inside the command-line `setup_competitors` loop:
`self.competitors[name] = {...fresh...}` — a plain dict assignment, which
overwrites an existing key in place (keeping its position) and otherwise
appends.  No duplicate check is performed. -/
def cli_register (name : String) (l : Ledger) : Ledger :=
  if l.any (fun p => p.1 == name) then
    l.map (fun p => if p.1 = name then (p.1, freshStats) else p)
  else l ++ [(name, freshStats)]

/-! ## Concrete values used to instantiate the theorems -/

/-- A sample heat: Alice on lane 1, Bob on lane 2, both finishing. -/
def exampleHeat : HeatInput :=
  { assignments := [(1, "Alice"), (2, "Bob")],
    times := [some (mkRat 12345 10000), some (mkRat 11111 10000), none, none],
    heatNo := 1 }

/-- A sample two-competitor ledger fresh after registration. -/
def exampleLedger : Ledger := [("Alice", freshStats), ("Bob", freshStats)]

/-- A sample tracker state before the first heat is processed. -/
def exampleState : TournamentState :=
  { competitors := exampleLedger,
    current_heat_assignments := [(1, "Alice")],
    heat_number := 1 }

/-- A stats record of a competitor who has raced once in 5.0000 seconds. -/
def raced5 : CompetitorStats :=
  { heats := [{ heat := 1, lane := 1, time := 5 }],
    best_time := some 5, total_time := 5, races_count := 1 }

/-- A stats record whose single recorded time is 0.0000 seconds, giving a
present `best_time` equal to `0.0`. -/
def zeroBest : CompetitorStats :=
  { heats := [{ heat := 1, lane := 1, time := 0 }],
    best_time := some 0, total_time := 0, races_count := 1 }

/-- A stats record with a recorded best time of 1000.0 seconds, above the
999.0 sentinel used by the standings sort. -/
def slow1000 : CompetitorStats :=
  { heats := [{ heat := 1, lane := 1, time := 1000 }],
    best_time := some 1000, total_time := 1000, races_count := 1 }

/-! ## Lemmas about the timer line parser -/

theorem length_takeWhile_le (p : Char → Bool) (s : List Char) :
    (s.takeWhile p).length ≤ s.length := by
  induction s with
  | nil => simp
  | cons c cs ih =>
    rw [List.takeWhile_cons]
    split
    · simpa using ih
    · simp

theorem take_all_of_le_takeWhile (p : Char → Bool) (s : List Char) (j : ℕ)
    (h : j ≤ (s.takeWhile p).length) : (s.take j).all p = true := by
  have h1 : s.take j = (s.takeWhile p).take j := by
    conv_lhs => rw [← List.takeWhile_append_dropWhile p s]
    exact List.take_append_of_le_length h
  rw [h1, List.all_eq_true]
  intro x hx
  exact List.mem_takeWhile_imp (List.mem_of_mem_take hx)

theorem length_take_of_le_takeWhile (p : Char → Bool) (s : List Char) (j : ℕ)
    (h : j ≤ (s.takeWhile p).length) : (s.take j).length = j := by
  rw [List.length_take]
  have := length_takeWhile_le p s
  omega

theorem takeWhile_all_append (p : Char → Bool) (A B : List Char) (c : Char)
    (hA : A.all p = true) (hc : p c = false) :
    (A ++ c :: B).takeWhile p = A := by
  induction A with
  | nil => simp [List.takeWhile_cons, hc]
  | cons a as ih =>
    simp only [List.all_cons, Bool.and_eq_true] at hA
    simp [List.takeWhile_cons, hA.1, ih hA.2]

theorem takeWhile_of_all (p : Char → Bool) (A : List Char) (hA : A.all p = true) :
    A.takeWhile p = A := by
  induction A with
  | nil => simp
  | cons a as ih =>
    simp only [List.all_cons, Bool.and_eq_true] at hA
    simp [List.takeWhile_cons, hA.1, ih hA.2]

theorem tryFrom_exists (s : List Char) :
    ∀ k n, tryFrom s k = some n → ∃ j, 1 ≤ j ∧ j ≤ k ∧ matchLen s j = some n := by
  intro k
  induction k with
  | zero => intro n h; simp [tryFrom] at h
  | succ k ih =>
    intro n h
    rw [tryFrom] at h
    cases hm : matchLen s (k + 1) with
    | some m =>
      rw [hm] at h
      simp only [Option.some_orElse, Option.some.injEq] at h
      exact ⟨k + 1, by omega, le_refl _, by rw [hm, h]⟩
    | none =>
      rw [hm] at h
      simp only [Option.none_orElse] at h
      obtain ⟨j, h1, h2, h3⟩ := ih n h
      exact ⟨j, h1, by omega, h3⟩

theorem matchLen_cases (s : List Char) (j n : ℕ) (h : matchLen s j = some n) :
    (∃ r2, s.drop j = '.' :: r2 ∧ fourDigits r2 = true ∧ n = j + 5) ∨
    (fourDigits (s.drop j) = true ∧ n = j + 4) := by
  rw [matchLen] at h
  split at h
  · next r2 heq =>
    by_cases h4 : fourDigits r2 = true
    · rw [if_pos h4] at h
      simp only [Option.some_orElse, Option.some.injEq] at h
      exact Or.inl ⟨r2, heq, h4, h.symm⟩
    · rw [if_neg h4] at h
      simp only [Option.none_orElse] at h
      split at h
      · next hfd =>
        simp only [Option.some.injEq] at h
        exact Or.inr ⟨hfd, h.symm⟩
      · exact absurd h (by simp)
  · simp only [Option.none_orElse] at h
    split at h
    · next hfd =>
      simp only [Option.some.injEq] at h
      exact Or.inr ⟨hfd, h.symm⟩
    · exact absurd h (by simp)

theorem fourDigits_spec (r : List Char) (h : fourDigits r = true) :
    (r.take 4).length = 4 ∧ (r.take 4).all Char.isDigit = true := by
  rw [fourDigits, Bool.and_eq_true, decide_eq_true_eq] at h
  exact h

theorem matchAt_pattern (s : List Char) (n : ℕ) (h : matchAt s = some n) :
    patternFullMatch (s.take n) = true := by
  obtain ⟨j, hj1, hj2, hm⟩ := tryFrom_exists s _ n h
  have hjtw : j ≤ (s.takeWhile Char.isDigit).length := hj2
  have hA : (s.take j).all Char.isDigit = true :=
    take_all_of_le_takeWhile Char.isDigit s j hjtw
  have hAlen : (s.take j).length = j :=
    length_take_of_le_takeWhile Char.isDigit s j hjtw
  rcases matchLen_cases s j n hm with ⟨r2, hdrop, h4, hn⟩ | ⟨h4, hn⟩
  · -- dot branch: match = j digits ++ '.' ++ four digits
    obtain ⟨h4l, h4a⟩ := fourDigits_spec r2 h4
    have hsplit : s.take n = s.take j ++ ('.' :: r2.take 4) := by
      rw [hn, show j + 5 = j + (1 + 4) by omega, List.take_add, hdrop]
      simp
    rw [hsplit, patternFullMatch]
    have htw : (s.take j ++ '.' :: r2.take 4).takeWhile Char.isDigit = s.take j :=
      takeWhile_all_append Char.isDigit _ (r2.take 4) '.' hA (by decide)
    simp only [htw, hAlen]
    rw [List.drop_left' hAlen]
    simp only [Bool.and_eq_true, decide_eq_true_eq]
    exact ⟨by omega, by rw [h4l], h4a⟩
  · -- no-dot branch: match = j + 4 digits
    obtain ⟨h4l, h4a⟩ := fourDigits_spec (s.drop j) h4
    have hsplit : s.take n = s.take j ++ (s.drop j).take 4 := by
      rw [hn, List.take_add]
    have hall : (s.take n).all Char.isDigit = true := by
      rw [hsplit, List.all_append, hA, h4a]; rfl
    have hlen : (s.take n).length = j + 4 := by
      rw [hsplit, List.length_append, hAlen, h4l]
    rw [patternFullMatch]
    have htw : (s.take n).takeWhile Char.isDigit = s.take n :=
      takeWhile_of_all Char.isDigit _ hall
    simp only [htw, List.drop_length]
    simp only [Bool.and_eq_true, decide_eq_true_eq]
    exact ⟨by omega, by omega⟩

theorem findallF_pattern :
    ∀ (fuel : ℕ) (s : List Char) (m : List Char),
      m ∈ findallF fuel s → patternFullMatch m = true := by
  intro fuel
  induction fuel with
  | zero => intro s m h; simp [findallF] at h
  | succ fuel ih =>
    intro s m h
    cases s with
    | nil => simp [findallF] at h
    | cons c rest =>
      rw [findallF] at h
      cases hm : matchAt (c :: rest) with
      | some n =>
        rw [hm] at h
        rcases List.mem_cons.mp h with h1 | h1
        · rw [h1]; exact matchAt_pattern _ n hm
        · exact ih _ m h1
      | none =>
        rw [hm] at h
        exact ih rest m h

theorem findall_pattern (s : List Char) (m : List Char) (h : m ∈ findall s) :
    patternFullMatch m = true :=
  findallF_pattern s.length s m h

theorem parse_timer_data_length (line : String) :
    (parse_timer_data line).length = 4 := by
  rw [parse_timer_data]
  have : ((findall line.toList).take 4).length ≤ 4 := by
    rw [List.length_take]; omega
  simp only [List.length_append, List.length_map, List.length_replicate]
  omega

/-! ## Lemmas about the line framer -/

theorem splitFirst_append (c : Char) (l m : List Char) (h : c ∈ l) :
    splitFirst c (l ++ m) = ((splitFirst c l).1, (splitFirst c l).2 ++ m) := by
  induction l with
  | nil => simp at h
  | cons x xs ih =>
    by_cases hx : x = c
    · simp [splitFirst, hx]
    · have hmem : c ∈ xs := by
        rcases List.mem_cons.mp h with h1 | h1
        · exact absurd h1.symm hx
        · exact h1
      simp [splitFirst, hx, ih hmem]

theorem splitFirst_snd_length (c : Char) (l : List Char) (h : c ∈ l) :
    (splitFirst c l).2.length < l.length := by
  induction l with
  | nil => simp at h
  | cons x xs ih =>
    by_cases hx : x = c
    · simp [splitFirst, hx, Nat.lt_succ_self]
    · have hmem : c ∈ xs := by
        rcases List.mem_cons.mp h with h1 | h1
        · exact absurd h1.symm hx
        · exact h1
      have := ih hmem
      simp only [splitFirst, if_neg hx, List.length_cons]
      omega

theorem splitFirst_snd_subset (c : Char) (l : List Char) :
    ∀ x ∈ (splitFirst c l).2, x ∈ l := by
  induction l with
  | nil => simp [splitFirst]
  | cons y ys ih =>
    intro x hx
    by_cases hy : y = c
    · simp only [splitFirst, if_pos hy] at hx
      exact List.mem_cons_of_mem y hx
    · simp only [splitFirst, if_neg hy] at hx
      exact List.mem_cons_of_mem y (ih x hx)

theorem splitFirst_fst_takeWhile (c : Char) (l : List Char) :
    (splitFirst c l).1 = l.takeWhile (fun x => !(x == c)) := by
  induction l with
  | nil => simp [splitFirst]
  | cons x xs ih =>
    by_cases hx : x = c
    · simp [splitFirst, hx, List.takeWhile_cons]
    · simp [splitFirst, hx, List.takeWhile_cons, ih]

theorem extractF_nil (fuel : ℕ) : extractF fuel [] = ([], []) := by
  cases fuel <;> simp [extractF]

theorem extractF_no_delim (fuel : ℕ) (buf : List Char)
    (h1 : '\n' ∉ buf) (h2 : '\r' ∉ buf) : extractF fuel buf = ([], buf) := by
  cases fuel <;> simp [extractF, h1, h2]

theorem extractF_congr :
    ∀ f1 f2 buf, buf.length ≤ f1 → buf.length ≤ f2 →
      extractF f1 buf = extractF f2 buf := by
  intro f1
  induction f1 with
  | zero =>
    intro f2 buf h1 _
    have hbuf : buf = [] := List.length_eq_zero.mp (Nat.le_zero.mp h1)
    rw [hbuf, extractF_nil, extractF_nil]
  | succ f1 ih =>
    intro f2 buf h1 h2
    by_cases hn : '\n' ∈ buf
    · have hpos : 0 < buf.length := List.length_pos.mpr (List.ne_nil_of_mem hn)
      cases f2 with
      | zero => omega
      | succ f2 =>
        have hlt := splitFirst_snd_length '\n' buf hn
        simp only [extractF, if_pos hn]
        rw [ih f2 (splitFirst '\n' buf).2 (by omega) (by omega)]
    · by_cases hr : '\r' ∈ buf
      · have hpos : 0 < buf.length := List.length_pos.mpr (List.ne_nil_of_mem hr)
        cases f2 with
        | zero => omega
        | succ f2 =>
          have hlt := splitFirst_snd_length '\r' buf hr
          simp only [extractF, if_neg hn, if_pos hr]
          rw [ih f2 (splitFirst '\r' buf).2 (by omega) (by omega)]
      · rw [extractF_no_delim _ _ hn hr, extractF_no_delim _ _ hn hr]

/-- One-step unfolding of the framing loop, fuel hidden. -/
theorem extractLines_eq (buf : List Char) :
    extractLines buf =
      if '\n' ∈ buf then
        ((splitFirst '\n' buf).1 :: (extractLines (splitFirst '\n' buf).2).1,
         (extractLines (splitFirst '\n' buf).2).2)
      else if '\r' ∈ buf then
        ((splitFirst '\r' buf).1 :: (extractLines (splitFirst '\r' buf).2).1,
         (extractLines (splitFirst '\r' buf).2).2)
      else ([], buf) := by
  by_cases hn : '\n' ∈ buf
  · have hpos : 0 < buf.length := List.length_pos.mpr (List.ne_nil_of_mem hn)
    have hlt := splitFirst_snd_length '\n' buf hn
    obtain ⟨m, hm⟩ : ∃ m, buf.length = m + 1 := ⟨buf.length - 1, by omega⟩
    rw [extractLines, hm, extractF, if_pos hn, if_pos hn, extractLines]
    simp only []
    rw [extractF_congr m (splitFirst '\n' buf).2.length (splitFirst '\n' buf).2
      (by omega) (le_refl _)]
  · by_cases hr : '\r' ∈ buf
    · have hpos : 0 < buf.length := List.length_pos.mpr (List.ne_nil_of_mem hr)
      have hlt := splitFirst_snd_length '\r' buf hr
      obtain ⟨m, hm⟩ : ∃ m, buf.length = m + 1 := ⟨buf.length - 1, by omega⟩
      rw [extractLines, hm, extractF, if_neg hn, if_pos hr, if_neg hn, if_pos hr,
        extractLines]
      simp only []
      rw [extractF_congr m (splitFirst '\r' buf).2.length (splitFirst '\r' buf).2
        (by omega) (le_refl _)]
    · rw [extractLines, extractF_no_delim _ _ hn hr, if_neg hn, if_neg hr]

theorem extractLines_no_delim (buf : List Char)
    (h1 : '\n' ∉ buf) (h2 : '\r' ∉ buf) : extractLines buf = ([], buf) := by
  rw [extractLines_eq, if_neg h1, if_neg h2]

theorem extractLines_snd_no_delim (buf : List Char) :
    '\n' ∉ (extractLines buf).2 ∧ '\r' ∉ (extractLines buf).2 := by
  have main : ∀ fuel b, b.length ≤ fuel →
      '\n' ∉ (extractF fuel b).2 ∧ '\r' ∉ (extractF fuel b).2 := by
    intro fuel
    induction fuel with
    | zero =>
      intro b h
      have hb : b = [] := List.length_eq_zero.mp (Nat.le_zero.mp h)
      simp [hb, extractF_nil]
    | succ fuel ih =>
      intro b h
      by_cases hn : '\n' ∈ b
      · have hlt := splitFirst_snd_length '\n' b hn
        simp only [extractF, if_pos hn]
        exact ih _ (by omega)
      · by_cases hr : '\r' ∈ b
        · have hlt := splitFirst_snd_length '\r' b hr
          simp only [extractF, if_neg hn, if_pos hr]
          exact ih _ (by omega)
        · rw [extractF_no_delim _ _ hn hr]
          exact ⟨hn, hr⟩
  exact main buf.length buf (le_refl _)

theorem extract_append_aux :
    ∀ (k : ℕ) (b c : List Char), b.length ≤ k → '\r' ∉ b → '\r' ∉ c →
      extractLines (b ++ c) =
        ((extractLines b).1 ++ (extractLines ((extractLines b).2 ++ c)).1,
         (extractLines ((extractLines b).2 ++ c)).2) := by
  intro k
  induction k with
  | zero =>
    intro b c h _ _
    have hb : b = [] := List.length_eq_zero.mp (Nat.le_zero.mp h)
    simp [hb, extractLines_no_delim [] (by simp) (by simp)]
  | succ k ih =>
    intro b c h hrb hrc
    by_cases hn : '\n' ∈ b
    · have hlt := splitFirst_snd_length '\n' b hn
      have hnm : '\n' ∈ b ++ c := List.mem_append_left c hn
      have hsp := splitFirst_append '\n' b c hn
      have hr2 : '\r' ∉ (splitFirst '\n' b).2 := by
        intro hx; exact hrb (splitFirst_snd_subset '\n' b '\r' hx)
      have hih := ih (splitFirst '\n' b).2 c (by omega) hr2 hrc
      rw [extractLines_eq (b ++ c), if_pos hnm, hsp]
      rw [extractLines_eq b, if_pos hn]
      simp only [hih, List.cons_append]
    · have hb : extractLines b = ([], b) := extractLines_no_delim b hn hrb
      rw [hb]
      simp

theorem extract_append (b c : List Char) (hrb : '\r' ∉ b) (hrc : '\r' ∉ c) :
    extractLines (b ++ c) =
      ((extractLines b).1 ++ (extractLines ((extractLines b).2 ++ c)).1,
       (extractLines ((extractLines b).2 ++ c)).2) :=
  extract_append_aux b.length b c (le_refl _) hrb hrc

theorem feedChunks_join :
    ∀ (cs : List (List Char)) (b : List Char),
      '\n' ∉ b → '\r' ∉ b → (∀ c ∈ cs, '\r' ∉ c) →
      feedChunks b cs = extractLines (b ++ cs.flatten) := by
  intro cs
  induction cs with
  | nil =>
    intro b hnb hrb _
    simp [feedChunks, extractLines_no_delim b hnb hrb]
  | cons c cs ih =>
    intro b hnb hrb hcs
    have hrc : '\r' ∉ c := hcs c (List.mem_cons_self c cs)
    have hrbc : '\r' ∉ b ++ c := by
      intro hx
      rcases List.mem_append.mp hx with hx | hx
      · exact hrb hx
      · exact hrc hx
    have hrjoin : '\r' ∉ cs.flatten := by
      intro hx
      obtain ⟨l, hl, hxl⟩ := List.mem_flatten.mp hx
      exact hcs l (List.mem_cons_of_mem c hl) hxl
    have hsnd := extractLines_snd_no_delim (b ++ c)
    have hih := ih (extractLines (b ++ c)).2 hsnd.1 hsnd.2 (fun d hd => hcs d (List.mem_cons_of_mem c hd))
    have happ := extract_append (b ++ c) cs.flatten hrbc hrjoin
    rw [feedChunks, hih]
    rw [show b ++ (c :: cs).flatten = (b ++ c) ++ cs.flatten by simp [List.flatten]]
    rw [happ]

theorem extract_first_line (buf : List Char) (h : '\n' ∈ buf) :
    (extractLines buf).1.head? =
      some (buf.takeWhile (fun c => !(c == '\n'))) := by
  rw [extractLines_eq, if_pos h]
  simp [splitFirst_fst_takeWhile]

/-! ## Lemmas about winner resolution -/

theorem validTimesFrom_lane_lt (ts : List (Option ℚ)) :
    ∀ (i : ℕ), ∀ p ∈ validTimesFrom i ts, i < p.1 := by
  induction ts with
  | nil => intro i p hp; simp [validTimesFrom] at hp
  | cons t ts ih =>
    intro i p hp
    cases t with
    | none =>
      rw [validTimesFrom] at hp
      have := ih (i + 1) p hp
      omega
    | some v =>
      rw [validTimesFrom] at hp
      rcases List.mem_cons.mp hp with h | h
      · rw [h]; simp
      · have := ih (i + 1) p h
        omega

theorem validTimesFrom_pairwise (ts : List (Option ℚ)) :
    ∀ (i : ℕ), (validTimesFrom i ts).Pairwise (fun a b => a.1 < b.1) := by
  induction ts with
  | nil => intro i; simp [validTimesFrom]
  | cons t ts ih =>
    intro i
    cases t with
    | none => rw [validTimesFrom]; exact ih (i + 1)
    | some v =>
      rw [validTimesFrom, List.pairwise_cons]
      refine ⟨fun b hb => ?_, ih (i + 1)⟩
      have := validTimesFrom_lane_lt ts (i + 1) b hb
      simp only []
      omega

theorem validTimesFrom_mem (ts : List (Option ℚ)) :
    ∀ (i : ℕ) (p : ℕ × ℚ),
      p ∈ validTimesFrom i ts ↔
        ∃ d, d < ts.length ∧ p.1 = i + d + 1 ∧ ts.getD d none = some p.2 := by
  induction ts with
  | nil => intro i p; simp [validTimesFrom]
  | cons t ts ih =>
    intro i p
    cases t with
    | none =>
      rw [validTimesFrom, ih (i + 1)]
      constructor
      · rintro ⟨d, h1, h2, h3⟩
        refine ⟨d + 1, ?_, ?_, ?_⟩
        · simp; omega
        · omega
        · simpa using h3
      · rintro ⟨d, h1, h2, h3⟩
        cases d with
        | zero => simp at h3
        | succ d =>
          refine ⟨d, ?_, ?_, ?_⟩
          · simp at h1; omega
          · omega
          · simpa using h3
    | some v =>
      rw [validTimesFrom]
      constructor
      · intro hp
        rcases List.mem_cons.mp hp with h | h
        · subst h
          exact ⟨0, by simp, by simp, by simp⟩
        · obtain ⟨d, h1, h2, h3⟩ := (ih (i + 1) p).mp h
          refine ⟨d + 1, ?_, ?_, ?_⟩
          · simp; omega
          · omega
          · simpa using h3
      · rintro ⟨d, h1, h2, h3⟩
        cases d with
        | zero =>
          simp only [List.getD_cons_zero, Option.some.injEq] at h3
          have hp : p = (i + 1, v) := by
            apply Prod.ext
            · simp; omega
            · simp [h3]
          rw [hp]
          exact List.mem_cons_self _ _
        | succ d =>
          apply List.mem_cons_of_mem
          rw [ih (i + 1) p]
          refine ⟨d, ?_, ?_, ?_⟩
          · simp at h1; omega
          · omega
          · simpa using h3

theorem validTimesFrom_eq_nil (ts : List (Option ℚ)) :
    ∀ (i : ℕ), validTimesFrom i ts = [] ↔ ∀ t ∈ ts, t = none := by
  induction ts with
  | nil => intro i; simp [validTimesFrom]
  | cons t ts ih =>
    intro i
    cases t with
    | none =>
      rw [validTimesFrom, ih (i + 1)]
      simp
    | some v => simp [validTimesFrom]

theorem pyMin_spec :
    ∀ (xs : List (ℕ × ℚ)) (acc : ℕ × ℚ),
      (acc :: xs).Pairwise (fun a b => a.1 < b.1) →
      (xs.foldl (fun a y => if y.2 < a.2 then y else a) acc) ∈ acc :: xs ∧
      ∀ z ∈ acc :: xs,
        (xs.foldl (fun a y => if y.2 < a.2 then y else a) acc).2 ≤ z.2 ∧
        (z.2 ≤ (xs.foldl (fun a y => if y.2 < a.2 then y else a) acc).2 →
          (xs.foldl (fun a y => if y.2 < a.2 then y else a) acc).1 ≤ z.1) := by
  intro xs
  induction xs with
  | nil =>
    intro acc _
    refine ⟨List.mem_cons_self _ _, ?_⟩
    intro z hz
    rcases List.mem_cons.mp hz with h | h
    · rw [h]; exact ⟨le_refl _, fun _ => le_refl _⟩
    · simp at h
  | cons y ys ih =>
    intro acc hpw
    rw [List.pairwise_cons] at hpw
    obtain ⟨hacc, hpw2⟩ := hpw
    rw [List.pairwise_cons] at hpw2
    obtain ⟨hy, hys⟩ := hpw2
    by_cases hc : y.2 < acc.2
    · -- the fold proceeds with accumulator y
      have hpw' : (y :: ys).Pairwise (fun a b => a.1 < b.1) :=
        List.pairwise_cons.mpr ⟨hy, hys⟩
      have IH := ih y hpw'
      have hfold : (y :: ys).foldl (fun a y => if y.2 < a.2 then y else a) acc =
          ys.foldl (fun a y => if y.2 < a.2 then y else a) y := by
        rw [List.foldl_cons, if_pos hc]
      rw [hfold]
      set r := ys.foldl (fun a y => if y.2 < a.2 then y else a) y with hr
      refine ⟨?_, ?_⟩
      · rcases List.mem_cons.mp IH.1 with h | h
        · rw [h]; exact List.mem_cons_of_mem _ (List.mem_cons_self _ _)
        · exact List.mem_cons_of_mem _ (List.mem_cons_of_mem _ h)
      · intro z hz
        rcases List.mem_cons.mp hz with h | h
        · -- z = acc, and r.2 ≤ y.2 < acc.2
          have h1 : r.2 ≤ y.2 := (IH.2 y (List.mem_cons_self _ _)).1
          have h2 : r.2 < acc.2 := lt_of_le_of_lt h1 hc
          rw [h]
          exact ⟨le_of_lt h2, fun hle => absurd (lt_of_lt_of_le h2 hle) (lt_irrefl _)⟩
        · exact IH.2 z h
    · -- the fold keeps accumulator acc
      have hacc' : ∀ z ∈ ys, acc.1 < z.1 := fun z hz =>
        hacc z (List.mem_cons_of_mem _ hz)
      have hpw' : (acc :: ys).Pairwise (fun a b => a.1 < b.1) :=
        List.pairwise_cons.mpr ⟨hacc', hys⟩
      have IH := ih acc hpw'
      have hfold : (y :: ys).foldl (fun a y => if y.2 < a.2 then y else a) acc =
          ys.foldl (fun a y => if y.2 < a.2 then y else a) acc := by
        rw [List.foldl_cons, if_neg hc]
      rw [hfold]
      set r := ys.foldl (fun a y => if y.2 < a.2 then y else a) acc with hr
      have hle : acc.2 ≤ y.2 := le_of_not_lt hc
      refine ⟨?_, ?_⟩
      · rcases List.mem_cons.mp IH.1 with h | h
        · rw [h]; exact List.mem_cons_self _ _
        · exact List.mem_cons_of_mem _ (List.mem_cons_of_mem _ h)
      · intro z hz
        rcases List.mem_cons.mp hz with h | h
        · rw [h]; exact IH.2 acc (List.mem_cons_self _ _)
        rcases List.mem_cons.mp h with h2 | h2
        · -- z = y with acc.2 ≤ y.2
          have hracc := IH.2 acc (List.mem_cons_self _ _)
          have hr2 : r.2 ≤ acc.2 := hracc.1
          rw [h2]
          refine ⟨le_trans hr2 hle, fun hy2 => ?_⟩
          have : acc.2 ≤ r.2 := le_trans hle hy2
          have hr1 : r.1 ≤ acc.1 := hracc.2 this
          have : acc.1 < y.1 := hacc y (List.mem_cons_self _ _)
          omega
        · exact IH.2 z (List.mem_cons_of_mem _ h2)

/-- C5 helper: the characterization of `find_winner` on any 4-slot array. -/
theorem find_winner_spec (times : List (Option ℚ)) (hlen : times.length = 4) :
    (find_winner times = none ↔ ∀ t ∈ times, t = none) ∧
    (∀ wl wt, find_winner times = some (wl, wt) →
      1 ≤ wl ∧ wl ≤ 4 ∧ times.getD (wl - 1) none = some wt ∧
      ∀ i t, i < 4 → times.getD i none = some t →
        wt ≤ t ∧ (t ≤ wt → wl ≤ i + 1)) := by
  constructor
  · cases hv : validTimes times with
    | nil =>
      have h1 : find_winner times = none := by rw [find_winner, hv]
      have h2 : ∀ t ∈ times, t = none := (validTimesFrom_eq_nil times 0).mp hv
      exact ⟨fun _ => h2, fun _ => h1⟩
    | cons x xs =>
      constructor
      · intro h
        rw [find_winner, hv] at h
        simp at h
      · intro h
        have h0 : validTimesFrom 0 times = [] := (validTimesFrom_eq_nil times 0).mpr h
        rw [validTimes] at hv
        rw [h0] at hv
        exact absurd hv (by simp)
  · intro wl wt hfw
    rw [find_winner] at hfw
    cases hv : validTimes times with
    | nil => rw [hv] at hfw; simp at hfw
    | cons x xs =>
      rw [hv] at hfw
      simp only [Option.some.injEq] at hfw
      have hpw : (x :: xs).Pairwise (fun a b => a.1 < b.1) := by
        rw [← hv]
        exact validTimesFrom_pairwise times 0
      have hmin := pyMin_spec xs x hpw
      rw [hfw] at hmin
      have hmem : (wl, wt) ∈ validTimes times := by rw [hv]; exact hmin.1
      obtain ⟨d, hd1, hd2, hd3⟩ := (validTimesFrom_mem times 0 (wl, wt)).mp hmem
      rw [hlen] at hd1
      simp only [] at hd2 hd3
      refine ⟨by omega, by omega, ?_, ?_⟩
      · rw [show wl - 1 = d by omega]; exact hd3
      · intro i t hi ht
        have hmem2 : (i + 1, t) ∈ validTimes times := by
          rw [validTimes, validTimesFrom_mem times 0 (i + 1, t)]
          exact ⟨i, by omega, by simp, ht⟩
        rw [hv] at hmem2
        have := hmin.2 (i + 1, t) hmem2
        exact this

/-! ## Lemmas about the ledger update -/

theorem lookupName_updateCompetitor_eq (X : String) (f : CompetitorStats → CompetitorStats)
    (l : Ledger) :
    lookupName X (updateCompetitor X f l) = (lookupName X l).map f := by
  induction l with
  | nil => simp [updateCompetitor, lookupName]
  | cons p l ih =>
    by_cases hp : p.1 = X
    · simp [updateCompetitor, lookupName, hp]
    · simp only [updateCompetitor, List.map_cons, if_neg hp]
      rw [lookupName, if_neg hp, lookupName, if_neg hp]
      exact ih

theorem lookupName_updateCompetitor_ne (X name : String) (f : CompetitorStats → CompetitorStats)
    (l : Ledger) (h : X ≠ name) :
    lookupName X (updateCompetitor name f l) = lookupName X l := by
  induction l with
  | nil => simp [updateCompetitor, lookupName]
  | cons p l ih =>
    by_cases hp : p.1 = name
    · have hpx : ¬ p.1 = X := by rw [hp]; exact fun hx => h hx.symm
      simp only [updateCompetitor, List.map_cons, if_pos hp]
      rw [lookupName, lookupName]
      simp only [if_neg hpx]
      exact ih
    · simp only [updateCompetitor, List.map_cons, if_neg hp]
      rw [lookupName, lookupName]
      by_cases hx : p.1 = X
      · simp [if_pos hx]
      · simp only [if_neg hx]
        exact ih

theorem map_fst_updateCompetitor (name : String) (f : CompetitorStats → CompetitorStats)
    (l : Ledger) :
    (updateCompetitor name f l).map Prod.fst = l.map Prod.fst := by
  induction l with
  | nil => simp [updateCompetitor]
  | cons p l ih =>
    by_cases hp : p.1 = name
    · simp only [updateCompetitor, List.map_cons, if_pos hp] at ih ⊢
      rw [ih]
    · simp only [updateCompetitor, List.map_cons, if_neg hp] at ih ⊢
      rw [ih]

theorem stepLane_lookup_pair (h : HeatInput) (lane : ℕ) (l : Ledger) (X : String)
    (s : CompetitorStats) (hs : lookupName X l = some s) :
    lookupName X (stepLane h l lane) =
      some (match laneCreditPair X h lane with
            | some p => applyTime h.heatNo p.1 p.2 s
            | none => s) := by
  rw [stepLane, laneCreditPair]
  cases ha : lookupLane lane h.assignments with
  | none => simpa using hs
  | some c =>
    cases ht : h.times.getD (lane - 1) none with
    | none => simpa using hs
    | some t =>
      by_cases hc : c = X
      · subst hc
        simp only [if_pos rfl]
        rw [lookupName_updateCompetitor_eq, hs]
        rfl
      · simp only [if_neg hc]
        rw [lookupName_updateCompetitor_ne X c _ l (fun hx => hc hx.symm), hs]

theorem stepLane_lookup_not_credited (h : HeatInput) (lane : ℕ) (l : Ledger) (X : String)
    (hp : laneCreditPair X h lane = none) :
    lookupName X (stepLane h l lane) = lookupName X l := by
  rw [stepLane]
  rw [laneCreditPair] at hp
  cases ha : lookupLane lane h.assignments with
  | none => rfl
  | some c =>
    rw [ha] at hp
    cases ht : h.times.getD (lane - 1) none with
    | none => rfl
    | some t =>
      rw [ht] at hp
      have hp' : (if c = X then some (lane, t) else none) = (none : Option (ℕ × ℚ)) := hp
      by_cases hc : c = X
      · rw [if_pos hc] at hp'
        exact absurd hp' (by simp)
      · show lookupName X (updateCompetitor c (applyTime h.heatNo lane t) l) = lookupName X l
        exact lookupName_updateCompetitor_ne X c _ l (fun hx => hc hx.symm)

theorem stepLane_map_fst (h : HeatInput) (l : Ledger) (lane : ℕ) :
    (stepLane h l lane).map Prod.fst = l.map Prod.fst := by
  rw [stepLane]
  cases ha : lookupLane lane h.assignments with
  | none => rfl
  | some c =>
    cases ht : h.times.getD (lane - 1) none with
    | none => rfl
    | some t => exact map_fst_updateCompetitor c _ l

theorem foldl_stepLane_lookup (h : HeatInput) :
    ∀ (lanes : List ℕ) (l : Ledger) (X : String) (s : CompetitorStats),
      lookupName X l = some s →
      lookupName X (lanes.foldl (stepLane h) l) =
        some ((lanes.filterMap (laneCreditPair X h)).foldl
          (fun st p => applyTime h.heatNo p.1 p.2 st) s) := by
  intro lanes
  induction lanes with
  | nil => intro l X s hs; simpa using hs
  | cons lane lanes ih =>
    intro l X s hs
    rw [List.foldl_cons, List.filterMap_cons]
    have hstep := stepLane_lookup_pair h lane l X s hs
    cases hp : laneCreditPair X h lane with
    | none =>
      rw [hp] at hstep
      exact ih _ X s hstep
    | some p =>
      rw [hp] at hstep
      rw [List.foldl_cons]
      exact ih _ X _ hstep

theorem foldl_stepLane_not_credited (h : HeatInput) :
    ∀ (lanes : List ℕ) (l : Ledger) (X : String),
      (∀ lane ∈ lanes, laneCreditPair X h lane = none) →
      lookupName X (lanes.foldl (stepLane h) l) = lookupName X l := by
  intro lanes
  induction lanes with
  | nil => intro l X _; rfl
  | cons lane lanes ih =>
    intro l X hnone
    rw [List.foldl_cons]
    rw [ih _ X (fun la hla => hnone la (List.mem_cons_of_mem _ hla))]
    exact stepLane_lookup_not_credited h lane l X (hnone lane (List.mem_cons_self _ _))

theorem foldl_stepLane_map_fst (h : HeatInput) :
    ∀ (lanes : List ℕ) (l : Ledger),
      (lanes.foldl (stepLane h) l).map Prod.fst = l.map Prod.fst := by
  intro lanes
  induction lanes with
  | nil => intro l; rfl
  | cons lane lanes ih =>
    intro l
    rw [List.foldl_cons, ih, stepLane_map_fst]

theorem laneCreditPair_none_of_not_credited (h : HeatInput) (X : String)
    (hn : X ∉ creditedNames h) :
    ∀ lane ∈ [1, 2, 3, 4], laneCreditPair X h lane = none := by
  intro lane hl
  rw [laneCreditPair]
  cases ha : lookupLane lane h.assignments with
  | none => rfl
  | some c =>
    cases ht : h.times.getD (lane - 1) none with
    | none => rfl
    | some t =>
      by_cases hc : c = X
      · exfalso
        apply hn
        rw [creditedNames]
        apply List.mem_filterMap.mpr
        refine ⟨lane, hl, ?_⟩
        rw [ha, ht, hc]
      · show (if c = X then some (lane, t) else none) = none
        rw [if_neg hc]

theorem creditedTimes_eq_map_snd (X : String) (h : HeatInput) :
    creditedTimes X h = (creditedPairs X h).map Prod.snd := by
  rw [creditedTimes, creditedPairs]
  have main : ∀ lanes : List ℕ,
      lanes.filterMap (laneCredit X h) =
        (lanes.filterMap (laneCreditPair X h)).map Prod.snd := by
    intro lanes
    induction lanes with
    | nil => simp
    | cons lane lanes ih =>
      rw [List.filterMap_cons, List.filterMap_cons, laneCredit, laneCreditPair]
      cases ha : lookupLane lane h.assignments with
      | none => exact ih
      | some c =>
        cases ht : h.times.getD (lane - 1) none with
        | none => exact ih
        | some t =>
          by_cases hc : c = X
          · simp only [if_pos hc, List.map_cons, ih]
          · simp only [if_neg hc]
            exact ih
  exact main [1, 2, 3, 4]

theorem statsFold_races (hn : ℕ) :
    ∀ (ps : List (ℕ × ℚ)) (s : CompetitorStats),
      (statsFold hn s ps).races_count = s.races_count + ps.length := by
  intro ps
  induction ps with
  | nil => intro s; simp [statsFold]
  | cons p ps ih =>
    intro s
    rw [statsFold, List.foldl_cons]
    have := ih (applyTime hn p.1 p.2 s)
    rw [statsFold] at this
    rw [this, applyTime]
    simp
    omega

theorem statsFold_total (hn : ℕ) :
    ∀ (ps : List (ℕ × ℚ)) (s : CompetitorStats),
      (statsFold hn s ps).total_time = s.total_time + (ps.map Prod.snd).sum := by
  intro ps
  induction ps with
  | nil => intro s; simp [statsFold]
  | cons p ps ih =>
    intro s
    rw [statsFold, List.foldl_cons]
    have := ih (applyTime hn p.1 p.2 s)
    rw [statsFold] at this
    rw [this, applyTime]
    simp only [List.map_cons, List.sum_cons]
    ring

theorem statsFold_heats (hn : ℕ) :
    ∀ (ps : List (ℕ × ℚ)) (s : CompetitorStats),
      (statsFold hn s ps).heats =
        s.heats ++ ps.map (fun p => { heat := hn, lane := p.1, time := p.2 : HeatRecord }) := by
  intro ps
  induction ps with
  | nil => intro s; simp [statsFold]
  | cons p ps ih =>
    intro s
    rw [statsFold, List.foldl_cons]
    have := ih (applyTime hn p.1 p.2 s)
    rw [statsFold] at this
    rw [this, applyTime]
    simp

theorem statsFold_best (hn : ℕ) :
    ∀ (ps : List (ℕ × ℚ)) (s : CompetitorStats),
      (statsFold hn s ps).best_time = bestAcc s.best_time (ps.map Prod.snd) := by
  intro ps
  induction ps with
  | nil => intro s; simp [statsFold, bestAcc]
  | cons p ps ih =>
    intro s
    rw [statsFold, List.foldl_cons]
    have := ih (applyTime hn p.1 p.2 s)
    rw [statsFold] at this
    rw [this, applyTime]
    rfl

theorem lookup_applyHeatInput (l : Ledger) (h : HeatInput) (X : String) (s : CompetitorStats)
    (hs : lookupName X l = some s) :
    lookupName X (applyHeatInput l h) = some (statsFold h.heatNo s (creditedPairs X h)) := by
  rw [applyHeatInput, creditedPairs, statsFold]
  exact foldl_stepLane_lookup h [1, 2, 3, 4] l X s hs

theorem lookup_foldl_applyHeatInput :
    ∀ (hs : List HeatInput) (l : Ledger) (X : String) (s : CompetitorStats),
      lookupName X l = some s →
      lookupName X (hs.foldl applyHeatInput l) =
        some (hs.foldl (fun st h => statsFold h.heatNo st (creditedPairs X h)) s) := by
  intro hs
  induction hs with
  | nil => intro l X s h; simpa using h
  | cons h hs ih =>
    intro l X s hls
    rw [List.foldl_cons, List.foldl_cons]
    exact ih _ X _ (lookup_applyHeatInput l h X s hls)

theorem bestAcc_append (b : Option ℚ) (t1 t2 : List ℚ) :
    bestAcc b (t1 ++ t2) = bestAcc (bestAcc b t1) t2 := by
  rw [bestAcc, bestAcc, bestAcc, List.foldl_append]

theorem foldl_statsFold_fields (X : String) :
    ∀ (hs : List HeatInput) (s : CompetitorStats),
      (hs.foldl (fun st h => statsFold h.heatNo st (creditedPairs X h)) s).races_count
          = s.races_count + (hs.flatMap (creditedTimes X)).length ∧
      (hs.foldl (fun st h => statsFold h.heatNo st (creditedPairs X h)) s).total_time
          = s.total_time + (hs.flatMap (creditedTimes X)).sum ∧
      (hs.foldl (fun st h => statsFold h.heatNo st (creditedPairs X h)) s).heats
          = s.heats ++ hs.flatMap (creditedRecords X) ∧
      (hs.foldl (fun st h => statsFold h.heatNo st (creditedPairs X h)) s).best_time
          = bestAcc s.best_time (hs.flatMap (creditedTimes X)) := by
  intro hs
  induction hs with
  | nil =>
    intro s
    refine ⟨by simp, by simp, by simp, by simp [bestAcc]⟩
  | cons h hs ih =>
    intro s
    rw [List.foldl_cons]
    obtain ⟨ir, it, ihh, ib⟩ := ih (statsFold h.heatNo s (creditedPairs X h))
    refine ⟨?_, ?_, ?_, ?_⟩
    · rw [ir, statsFold_races, List.flatMap_cons, List.length_append,
        creditedTimes_eq_map_snd, List.length_map]
      omega
    · rw [it, statsFold_total, List.flatMap_cons, List.sum_append,
        creditedTimes_eq_map_snd]
      ring
    · rw [ihh, statsFold_heats, List.flatMap_cons, List.append_assoc]
      rw [creditedRecords]
    · rw [ib, statsFold_best, List.flatMap_cons, bestAcc_append,
        creditedTimes_eq_map_snd]

theorem bestAcc_isSome (ts : List ℚ) :
    ∀ (b : Option ℚ), b.isSome → (bestAcc b ts).isSome := by
  induction ts with
  | nil => intro b hb; simpa [bestAcc] using hb
  | cons t ts ih =>
    intro b _
    rw [bestAcc, List.foldl_cons]
    cases b with
    | none => exact ih (some t) rfl
    | some v =>
      by_cases hc : t < v
      · simp only [if_pos hc]
        exact ih (some t) rfl
      · simp only [if_neg hc]
        exact ih (some v) rfl

theorem bestAcc_none_iff (ts : List ℚ) :
    ∀ (b : Option ℚ), bestAcc b ts = none ↔ b = none ∧ ts = [] := by
  induction ts with
  | nil => intro b; simp [bestAcc]
  | cons t ts ih =>
    intro b
    constructor
    · intro h
      exfalso
      have hsome : (bestAcc b (t :: ts)).isSome := by
        rw [bestAcc, List.foldl_cons]
        cases b with
        | none => exact bestAcc_isSome ts (some t) rfl
        | some v =>
          by_cases hc : t < v
          · simp only [if_pos hc]; exact bestAcc_isSome ts (some t) rfl
          · simp only [if_neg hc]; exact bestAcc_isSome ts (some v) rfl
      rw [h] at hsome
      simp at hsome
    · rintro ⟨_, h⟩
      exact absurd h (by simp)

theorem bestAcc_min (ts : List ℚ) :
    ∀ (b : Option ℚ) (v : ℚ), bestAcc b ts = some v →
      (v ∈ ts ∨ b = some v) ∧ (∀ t ∈ ts, v ≤ t) ∧ (∀ u, b = some u → v ≤ u) := by
  induction ts with
  | nil =>
    intro b v h
    rw [bestAcc] at h
    simp only [List.foldl_nil] at h
    refine ⟨Or.inr h, by simp, ?_⟩
    intro u hu
    rw [h] at hu
    simp only [Option.some.injEq] at hu
    exact le_of_eq hu
  | cons t ts ih =>
    intro b v h
    rw [bestAcc, List.foldl_cons] at h
    cases b with
    | none =>
      have h' : bestAcc (some t) ts = some v := h
      obtain ⟨hmem, hmin, hub⟩ := ih (some t) v h'
      refine ⟨?_, ?_, ?_⟩
      · rcases hmem with hm | hm
        · exact Or.inl (List.mem_cons_of_mem _ hm)
        · simp only [Option.some.injEq] at hm
          exact Or.inl (hm ▸ List.mem_cons_self _ _)
      · intro z hz
        rcases List.mem_cons.mp hz with hz | hz
        · rw [hz]; exact hub t rfl
        · exact hmin z hz
      · intro u hu; simp at hu
    | some w =>
      have hm : bestAcc (if t < w then some t else some w) ts = some v := h
      by_cases hc : t < w
      · rw [if_pos hc] at hm
        have h' : bestAcc (some t) ts = some v := hm
        obtain ⟨hmem, hmin, hub⟩ := ih (some t) v h'
        refine ⟨?_, ?_, ?_⟩
        · rcases hmem with hm | hm
          · exact Or.inl (List.mem_cons_of_mem _ hm)
          · simp only [Option.some.injEq] at hm
            exact Or.inl (hm ▸ List.mem_cons_self _ _)
        · intro z hz
          rcases List.mem_cons.mp hz with hz | hz
          · rw [hz]; exact hub t rfl
          · exact hmin z hz
        · intro u hu
          simp only [Option.some.injEq] at hu
          have := hub t rfl
          rw [← hu]
          exact le_of_lt (lt_of_le_of_lt this hc)
      · rw [if_neg hc] at hm
        have h' : bestAcc (some w) ts = some v := hm
        obtain ⟨hmem, hmin, hub⟩ := ih (some w) v h'
        have hwv : v ≤ w := hub w rfl
        refine ⟨?_, ?_, ?_⟩
        · rcases hmem with hm | hm
          · exact Or.inl (List.mem_cons_of_mem _ hm)
          · exact Or.inr hm
        · intro z hz
          rcases List.mem_cons.mp hz with hz | hz
          · rw [hz]
            exact le_trans hwv (le_of_not_lt hc)
          · exact hmin z hz
        · intro u hu
          simp only [Option.some.injEq] at hu
          rw [← hu]
          exact hwv

/-! ## Lemmas about the standings sort -/

theorem mem_insertByKey (x z : String × CompetitorStats) (l : Ledger) :
    z ∈ insertByKey x l ↔ z = x ∨ z ∈ l := by
  induction l with
  | nil => simp [insertByKey]
  | cons y ys ih =>
    rw [insertByKey]
    by_cases hc : sKey x ≤ sKey y
    · rw [if_pos hc]
      simp [List.mem_cons]
    · rw [if_neg hc]
      rw [List.mem_cons, ih, List.mem_cons]
      tauto

theorem perm_insertByKey (x : String × CompetitorStats) (l : Ledger) :
    (insertByKey x l).Perm (x :: l) := by
  induction l with
  | nil => simp [insertByKey]
  | cons y ys ih =>
    rw [insertByKey]
    by_cases hc : sKey x ≤ sKey y
    · rw [if_pos hc]
    · rw [if_neg hc]
      have h1 : (y :: insertByKey x ys).Perm (y :: x :: ys) := List.Perm.cons y ih
      have h2 : (y :: x :: ys).Perm (x :: y :: ys) := List.Perm.swap x y ys
      exact h1.trans h2

theorem pairwise_insertByKey (x : String × CompetitorStats) (l : Ledger)
    (hl : l.Pairwise (fun a b => sKey a ≤ sKey b)) :
    (insertByKey x l).Pairwise (fun a b => sKey a ≤ sKey b) := by
  induction l with
  | nil => simp [insertByKey]
  | cons y ys ih =>
    rw [List.pairwise_cons] at hl
    obtain ⟨hy, hys⟩ := hl
    rw [insertByKey]
    by_cases hc : sKey x ≤ sKey y
    · rw [if_pos hc]
      rw [List.pairwise_cons]
      refine ⟨?_, List.pairwise_cons.mpr ⟨hy, hys⟩⟩
      intro z hz
      rcases List.mem_cons.mp hz with hz | hz
      · rw [hz]; exact hc
      · exact le_trans hc (hy z hz)
    · rw [if_neg hc]
      rw [List.pairwise_cons]
      refine ⟨?_, ih hys⟩
      intro z hz
      rcases (mem_insertByKey x z ys).mp hz with hz | hz
      · rw [hz]; exact le_of_not_le hc
      · exact hy z hz

theorem sorted_competitors_pairwise (l : Ledger) :
    (sorted_competitors l).Pairwise (fun a b => sKey a ≤ sKey b) := by
  induction l with
  | nil => simp [sorted_competitors]
  | cons x xs ih =>
    rw [sorted_competitors]
    exact pairwise_insertByKey x _ ih

theorem sorted_competitors_perm (l : Ledger) : (sorted_competitors l).Perm l := by
  induction l with
  | nil => simp [sorted_competitors]
  | cons x xs ih =>
    rw [sorted_competitors]
    exact List.Perm.trans (perm_insertByKey x _) (List.Perm.cons x ih)

theorem filter_insertByKey_eq (x : String × CompetitorStats) (l : Ledger) (k : ℚ)
    (hl : l.Pairwise (fun a b => sKey a ≤ sKey b)) (hx : sKey x = k) :
    (insertByKey x l).filter (fun p => sKey p == k) =
      x :: l.filter (fun p => sKey p == k) := by
  induction l with
  | nil => simp [insertByKey, List.filter_cons, hx]
  | cons y ys ih =>
    rw [List.pairwise_cons] at hl
    obtain ⟨hy, hys⟩ := hl
    rw [insertByKey]
    by_cases hc : sKey x ≤ sKey y
    · rw [if_pos hc]
      rw [List.filter_cons, if_pos (by simp [hx])]
    · rw [if_neg hc]
      have hyk : ¬ (sKey y == k) = true := by
        simp only [beq_iff_eq]
        rw [← hx]
        intro he
        exact hc (le_of_eq he.symm)
      rw [List.filter_cons, if_neg hyk, List.filter_cons, if_neg hyk]
      exact ih hys

theorem filter_insertByKey_ne (x : String × CompetitorStats) (l : Ledger) (k : ℚ)
    (hx : sKey x ≠ k) :
    (insertByKey x l).filter (fun p => sKey p == k) =
      l.filter (fun p => sKey p == k) := by
  induction l with
  | nil => simp [insertByKey, List.filter_cons, hx]
  | cons y ys ih =>
    rw [insertByKey]
    by_cases hc : sKey x ≤ sKey y
    · rw [if_pos hc]
      rw [List.filter_cons, if_neg (by simpa using hx)]
    · rw [if_neg hc]
      rw [List.filter_cons, List.filter_cons]
      by_cases hyk : (sKey y == k) = true
      · rw [if_pos hyk, if_pos hyk, ih]
      · rw [if_neg hyk, if_neg hyk, ih]

theorem filter_sorted_competitors (l : Ledger) (k : ℚ) :
    (sorted_competitors l).filter (fun p => sKey p == k) =
      l.filter (fun p => sKey p == k) := by
  induction l with
  | nil => simp [sorted_competitors]
  | cons x xs ih =>
    rw [sorted_competitors]
    by_cases hx : sKey x = k
    · rw [filter_insertByKey_eq x _ k (sorted_competitors_pairwise xs) hx,
        List.filter_cons, if_pos (by simp [hx]), ih]
    · rw [filter_insertByKey_ne x _ k hx,
        List.filter_cons, if_neg (by simpa using hx), ih]

/-! ## A small lemma about in-place dict overwrites -/

theorem map_eq_self_iff (f : String × CompetitorStats → String × CompetitorStats) :
    ∀ (l : Ledger), l.map f = l ↔ ∀ p ∈ l, f p = p := by
  intro l
  induction l with
  | nil => simp
  | cons x xs ih =>
    rw [List.map_cons, List.cons.injEq, ih]
    constructor
    · rintro ⟨h1, h2⟩ p hp
      rcases List.mem_cons.mp hp with hp | hp
      · rw [hp]; exact h1
      · exact h2 p hp
    · intro h
      exact ⟨h x (List.mem_cons_self _ _), fun p hp => h p (List.mem_cons_of_mem _ hp)⟩

theorem flatMap_creditedRecords_length (X : String) (hs : List HeatInput) :
    (hs.flatMap (creditedRecords X)).length = (hs.flatMap (creditedTimes X)).length := by
  induction hs with
  | nil => simp
  | cons h hs ih =>
    simp only [List.flatMap_cons, List.length_append, ih, creditedRecords,
      List.length_map, creditedTimes_eq_map_snd]

/-! ## The claims -/

/-- C1, counterexample: the standings sort keys an absent `best_time` as the
finite sentinel `999.0`, not positive infinity.  With competitor A
registered first holding a recorded best time of 1000.0 and competitor B
having zero races, the ranking places B (zero races) before A (recorded
best time) — refuting "a competitor with zero races always ranks after any
competitor with a recorded best time, for all values of the recorded best
times". -/
theorem claim1_counterexample :
    sorted_competitors [("A", slow1000), ("B", freshStats)] =
      [("B", freshStats), ("A", slow1000)] ∧
    slow1000.best_time = some 1000 ∧
    freshStats.races_count = 0 ∧ freshStats.best_time = none := by
  decide

/-- C1, amended: the standings ranking orders competitors by the key
`best_time` when present and the sentinel `999.0` when absent, ascending,
with ties broken by stable original registration order (the output is a
permutation, is sorted by the key, and preserves the relative order of
equal keys); consequently a competitor with zero races ranks after every
competitor whose recorded best time is strictly below 999.0, but not
necessarily after one whose best time is 999.0 or more. -/
theorem claim1_standings_order_amended (l : Ledger) :
    (sorted_competitors l).Perm l ∧
    (sorted_competitors l).Pairwise (fun a b => sKey a ≤ sKey b) ∧
    (∀ k : ℚ, (sorted_competitors l).filter (fun p => sKey p == k) =
      l.filter (fun p => sKey p == k)) ∧
    (sorted_competitors l).Pairwise (fun a b =>
      a.2.best_time = none → ∀ t, b.2.best_time = some t → 999 ≤ t) := by
  refine ⟨sorted_competitors_perm l, sorted_competitors_pairwise l,
    fun k => filter_sorted_competitors l k, ?_⟩
  refine List.Pairwise.imp ?_ (sorted_competitors_pairwise l)
  intro a b hab
  intro hna t hbt
  have ha : sKey a = 999 := by rw [sKey, hna]; rfl
  have hb : sKey b = t := by rw [sKey, hbt]; rfl
  rw [ha, hb] at hab
  exact hab

/-- C2, counterexample: `re.findall` matches substrings, not whitespace
tokens.  The line `"1.23456"` consists of a single token with five
fractional digits — under the claim it matches nothing and every lane is
absent — yet the code extracts the prefix `1.2345` and assigns it to
lane 1. -/
theorem claim2_counterexample :
    claimed_parse_timer_data "1.23456" = [none, none, none, none] ∧
    parse_timer_data "1.23456" = [some (mkRat 12345 10000), none, none, none] ∧
    parse_timer_data "1.23456" ≠ claimed_parse_timer_data "1.23456" := by
  decide

/-- C2, amended: the parser always returns a 4-slot array holding the first
at most four left-to-right non-overlapping regex matches of
`\d+\.?\d{4}`, converted to numbers and assigned positionally to lanes
1–4, remaining lanes absent; every extracted match is itself a full
instance of the pattern (one or more digits, an optional dot, exactly four
more digits) — but matches are substrings of the line, so a token with more
than four fractional digits contributes its matching prefix rather than
being rejected. -/
theorem claim2_parse_matches_amended (line : String) :
    (parse_timer_data line).length = 4 ∧
    (∀ m ∈ findall line.toList, patternFullMatch m = true) ∧
    parse_timer_data line =
      ((findall line.toList).take 4).map (fun m => some (matchToRat m)) ++
        List.replicate (4 - ((findall line.toList).take 4).length) none := by
  refine ⟨parse_timer_data_length line, ?_, rfl⟩
  intro m hm
  exact findall_pattern line.toList m hm

/-- C2, witness: the single match extracted from `"1.23456"` is a full
pattern instance. -/
theorem claim2_amended_witness :
    patternFullMatch "1.2345".toList = true :=
  (claim2_parse_matches_amended "1.23456").2.1 "1.2345".toList (by decide)

/-- C3, counterexample: the framer prefers a newline anywhere in the buffer
over an earlier carriage return.  On the buffer `"a\rb\n"` the code yields
the single line `"a\rb"`, while splitting at the first delimiter of either
kind (the claim) yields the lines `"a"` and `"b"`; delivering the same
bytes as chunks `"a\r"` and `"b\n"` makes the code itself yield
`"a"`, `"b"`, so one-pass and incremental framing disagree. -/
theorem claim3_counterexample :
    extractLines "a\rb\n".toList = ([['a', '\r', 'b']], []) ∧
    extractLinesEither "a\rb\n".toList = ([['a'], ['b']], []) ∧
    extractLines "a\rb\n".toList ≠ extractLinesEither "a\rb\n".toList ∧
    (feedChunks [] ["a\r".toList, "b\n".toList]).1 ≠
      (extractLines ("a\r".toList ++ "b\n".toList)).1 := by
  decide

/-- C3, amended: whenever the buffer contains a newline the framer splits
at the first newline — even when a carriage return occurs earlier — and only
otherwise splits at the first carriage return, the remainder staying
buffered; one-chunk and incremental splitting of a byte stream yield the
same lines and the same final buffer (hence the same trimmed non-empty
lines) whenever the stream contains no carriage-return characters. -/
theorem claim3_framer_amended :
    (∀ buf : List Char, '\n' ∈ buf →
      (extractLines buf).1.head? =
        some (buf.takeWhile (fun c => !(c == '\n')))) ∧
    (∀ cs : List (List Char), (∀ c ∈ cs, '\r' ∉ c) →
      feedChunks [] cs = extractLines cs.flatten ∧
      ((feedChunks [] cs).1.map strip).filter (fun l => !l.isEmpty) =
        frameLines cs.flatten) := by
  constructor
  · exact fun buf h => extract_first_line buf h
  · intro cs hcs
    have h := feedChunks_join cs [] (by simp) (by simp) hcs
    rw [List.nil_append] at h
    refine ⟨h, ?_⟩
    rw [h, frameLines]

/-- C3, witness: the amended splitting rule and the carriage-return-free
chunk equivalence at concrete inputs. -/
theorem claim3_amended_witness :
    (extractLines "a\rb\n".toList).1.head? =
      some ("a\rb\n".toList.takeWhile (fun c => !(c == '\n'))) ∧
    feedChunks [] ["x\ny".toList, "z\n".toList] =
      extractLines (["x\ny".toList, "z\n".toList].flatten) :=
  ⟨claim3_framer_amended.1 "a\rb\n".toList (by decide),
   (claim3_framer_amended.2 ["x\ny".toList, "z\n".toList] (by decide)).1⟩

/-- C4: starting from a freshly registered competitor `X`, after any
sequence of heat updates the ledger entry of `X` holds exactly the credited
heat records (one per lane that had both an assignment for `X` and a
present time), `races_count` equal to the number of credited times (which
equals the number of heat records), `total_time` equal to their sum, and
`best_time` equal to their running minimum — absent when no time was ever
credited, and otherwise a member of the credited times that is a lower
bound of them; a lane assigned to `X` with an absent time credits nothing
and so changes none of `X`'s statistics. -/
theorem claim4_stats_invariant (hs : List HeatInput) (l₀ : Ledger) (X : String)
    (h0 : lookupName X l₀ = some freshStats) :
    lookupName X (hs.foldl applyHeatInput l₀) =
      some { heats := hs.flatMap (creditedRecords X),
             best_time := bestAcc none (hs.flatMap (creditedTimes X)),
             total_time := (hs.flatMap (creditedTimes X)).sum,
             races_count := (hs.flatMap (creditedTimes X)).length } ∧
    (hs.flatMap (creditedRecords X)).length = (hs.flatMap (creditedTimes X)).length ∧
    (bestAcc none (hs.flatMap (creditedTimes X)) = none ↔
      hs.flatMap (creditedTimes X) = []) ∧
    (∀ b, bestAcc none (hs.flatMap (creditedTimes X)) = some b →
      b ∈ hs.flatMap (creditedTimes X) ∧ ∀ t ∈ hs.flatMap (creditedTimes X), b ≤ t) := by
  refine ⟨?_, ?_, ?_, ?_⟩
  · rw [lookup_foldl_applyHeatInput hs l₀ X freshStats h0]
    obtain ⟨hr, ht, hh, hb⟩ := foldl_statsFold_fields X hs freshStats
    congr 1
    have heta : hs.foldl (fun st h => statsFold h.heatNo st (creditedPairs X h)) freshStats =
        { heats := (hs.foldl (fun st h => statsFold h.heatNo st (creditedPairs X h)) freshStats).heats,
          best_time := (hs.foldl (fun st h => statsFold h.heatNo st (creditedPairs X h)) freshStats).best_time,
          total_time := (hs.foldl (fun st h => statsFold h.heatNo st (creditedPairs X h)) freshStats).total_time,
          races_count := (hs.foldl (fun st h => statsFold h.heatNo st (creditedPairs X h)) freshStats).races_count } := rfl
    rw [heta, hr, ht, hh, hb]
    simp [freshStats]
  · exact flatMap_creditedRecords_length X hs
  · simpa using bestAcc_none_iff (hs.flatMap (creditedTimes X)) none
  · intro b hb
    have hm := bestAcc_min (hs.flatMap (creditedTimes X)) none b hb
    refine ⟨?_, hm.2.1⟩
    rcases hm.1 with h | h
    · exact h
    · exact absurd h (by simp)

/-- C4, witness: the invariant instantiated on a concrete two-competitor
ledger after one heat. -/
theorem claim4_witness :
    lookupName "Alice" ([exampleHeat].foldl applyHeatInput exampleLedger) =
      some { heats := [exampleHeat].flatMap (creditedRecords "Alice"),
             best_time := bestAcc none ([exampleHeat].flatMap (creditedTimes "Alice")),
             total_time := ([exampleHeat].flatMap (creditedTimes "Alice")).sum,
             races_count := ([exampleHeat].flatMap (creditedTimes "Alice")).length } :=
  (claim4_stats_invariant [exampleHeat] exampleLedger "Alice" (by decide)).1

/-- C5: on every 4-slot time array, `find_winner` returns no winner exactly
when all four slots are absent, and otherwise returns a lane 1–4 whose slot
holds the returned time, such that the returned time is a lower bound of
every present time and any lane achieving it is not below the returned
lane (ties go to the lowest-numbered lane); absent slots are excluded from
the comparison. -/
theorem claim5_find_winner (times : List (Option ℚ)) (hlen : times.length = 4) :
    (find_winner times = none ↔ ∀ t ∈ times, t = none) ∧
    (∀ wl wt, find_winner times = some (wl, wt) →
      1 ≤ wl ∧ wl ≤ 4 ∧ times.getD (wl - 1) none = some wt ∧
      ∀ i t, i < 4 → times.getD i none = some t →
        wt ≤ t ∧ (t ≤ wt → wl ≤ i + 1)) :=
  find_winner_spec times hlen

/-- C5, witness: the characterization instantiated at the spec's own
example `resolve([12.3456, 12.3455, null, 13.0])`. -/
theorem claim5_witness :
    (find_winner [some (mkRat 123456 10000), some (mkRat 123455 10000), none, some 13] = none ↔
      ∀ t ∈ [some (mkRat 123456 10000), some (mkRat 123455 10000), none, some 13], t = none) ∧
    (∀ wl wt,
      find_winner [some (mkRat 123456 10000), some (mkRat 123455 10000), none, some 13] =
        some (wl, wt) →
      1 ≤ wl ∧ wl ≤ 4 ∧
      ([some (mkRat 123456 10000), some (mkRat 123455 10000), none,
        some 13].getD (wl - 1) none = some wt) ∧
      ∀ i t, i < 4 →
        [some (mkRat 123456 10000), some (mkRat 123455 10000), none,
          some 13].getD i none = some t →
        wt ≤ t ∧ (t ≤ wt → wl ≤ i + 1)) :=
  claim5_find_winner
    [some (mkRat 123456 10000), some (mkRat 123455 10000), none, some 13] (by decide)

/-- C6: evaluation of both heat-log row builders at the first completed
heat of a session (`heat_number` still 1 while the row is written, since
both front ends increment only afterwards).  The command-line logger
records heat number 1 as the claim requires — and the full row shape is
heat number, timestamp, four (name, time) pairs, winner name — but the GUI
writes `heat_number - 1 = 0`, so its first logged heat number is 0, not 1:
the code contradicts the claim's canonical behavior. -/
theorem claim6_heat_row_eval :
    log_heat_results_row 1 "2024-01-01 10:00:00" [(1, "Alice")]
        [some (mkRat 50000 10000), none, none, none] (some 1) =
      [Cell.int 1, Cell.str "2024-01-01 10:00:00",
       Cell.str "Alice", Cell.num (mkRat 50000 10000),
       Cell.str "", Cell.str "", Cell.str "", Cell.str "",
       Cell.str "", Cell.str "", Cell.str "Alice"] ∧
    save_heat_results_row 1 "2024-01-01 10:00:00" [(1, "Alice")]
        [some (mkRat 50000 10000), none, none, none] (some 1) =
      [Cell.int 0, Cell.str "2024-01-01 10:00:00",
       Cell.str "Alice", Cell.num (mkRat 50000 10000),
       Cell.str "", Cell.str "", Cell.str "", Cell.str "",
       Cell.str "", Cell.str "", Cell.str "Alice"] := by
  decide

/-- C7, counterexample: the best-time cell is written with a truthiness
test, so a competitor whose recorded best time is `0.0` gets an empty
best-time field even though a best time is present — refuting "empty if and
only if the competitor has no recorded best time". -/
theorem claim7_counterexample :
    (standingsDataRow 1 ("Zed", zeroBest))[2]? = some (Cell.str "") ∧
    zeroBest.best_time = some 0 := by
  decide

/-- C7, amended: in a standings row the best-time field is empty iff the
competitor's `best_time` is absent or equal to `0.0` (the cell is built
with a truthiness test); the average-time field is empty iff `races_count`
is zero, and when `races_count > 0` it carries exactly
`total_time / races_count` — the division is never performed with a zero
divisor. -/
theorem claim7_row_cells_amended (s : CompetitorStats) :
    (bestCell s = Cell.str "" ↔ (s.best_time = none ∨ s.best_time = some 0)) ∧
    (avgCell s = Cell.str "" ↔ s.races_count = 0) ∧
    (0 < s.races_count →
      avgCell s = Cell.num (s.total_time / (s.races_count : ℚ))) := by
  refine ⟨?_, ?_, ?_⟩
  · rw [bestCell]
    cases hb : s.best_time with
    | none => simp
    | some b =>
      have hm : (match some b with
          | none => Cell.str ""
          | some b => if b = 0 then Cell.str "" else Cell.num b) =
          (if b = 0 then Cell.str "" else Cell.num b) := rfl
      rw [hm]
      by_cases h0 : b = 0
      · rw [if_pos h0]
        simp [h0]
      · rw [if_neg h0]
        simp [h0]
  · rw [avgCell]
    by_cases hr : 0 < s.races_count
    · rw [if_pos hr]
      constructor
      · intro h; exact absurd h (by simp)
      · intro h; omega
    · rw [if_neg hr]
      simp
      omega
  · intro hr
    rw [avgCell, if_pos hr]

/-- C7, witness: the average-time formula on a competitor with one race. -/
theorem claim7_amended_witness :
    avgCell raced5 = Cell.num (raced5.total_time / (raced5.races_count : ℚ)) :=
  (claim7_row_cells_amended raced5).2.2 (by decide)

/-- C8, counterexample: the command-line front end performs no duplicate
check — registering an already-present name overwrites the entry in place
with fresh statistics, so on a ledger where "Alice" has raced once the
registration both replaces the entry and resets her `races_count`,
contradicting "rejected … no entry is added or replaced". -/
theorem claim8_counterexample :
    cli_register "Alice" [("Alice", raced5)] = [("Alice", freshStats)] ∧
    raced5 ≠ freshStats ∧
    (lookupName "Alice" (cli_register "Alice" [("Alice", raced5)])).map
        CompetitorStats.races_count ≠
      (lookupName "Alice" [("Alice", raced5)]).map CompetitorStats.races_count := by
  decide

/-- C8, amended: in the GUI front end a duplicate registration is rejected
and the ledger is untouched; in the command-line front end a duplicate
name is not rejected — the dict assignment overwrites the entry in place
with fresh statistics (keeping its position and adding nothing), which
leaves the ledger unchanged exactly when every entry under that name still
holds fresh statistics, as is always the case during the CLI's setup
phase, the only point at which the CLI registers. -/
theorem claim8_registration_amended (l : Ledger) (name : String)
    (h : l.any (fun p => p.1 == name) = true) :
    add_competitor name l = l ∧
    (cli_register name l = l ↔ ∀ p ∈ l, p.1 = name → p.2 = freshStats) := by
  constructor
  · rw [add_competitor]
    by_cases he : name = ""
    · rw [if_pos he]
    · rw [if_neg he, if_pos h]
  · rw [cli_register, if_pos h, map_eq_self_iff]
    constructor
    · intro hf p hp hname
      have h1 := hf p hp
      rw [if_pos hname] at h1
      have h2 := congrArg Prod.snd h1
      exact h2.symm
    · intro hall p hp
      obtain ⟨p1, p2⟩ := p
      by_cases hname : p1 = name
      · simp only [if_pos hname]
        rw [show p2 = freshStats from hall (p1, p2) hp hname]
      · simp only [if_neg hname]

/-- C8, witness: a duplicate GUI registration on a concrete ledger leaves
it unchanged. -/
theorem claim8_amended_witness :
    add_competitor "Alice" [("Alice", freshStats)] = [("Alice", freshStats)] :=
  (claim8_registration_amended [("Alice", freshStats)] "Alice" (by decide)).1

/-- C9: the parser is a total function returning a 4-slot array on every
input string (the Python `try`/`except` cannot fire on string input, so it
never raises), and whenever the line yields zero pattern matches the
result is the all-absent array. -/
theorem claim9_parse_total (line : String) :
    (parse_timer_data line).length = 4 ∧
    (findall line.toList = [] → parse_timer_data line = [none, none, none, none]) := by
  refine ⟨parse_timer_data_length line, ?_⟩
  intro h
  rw [parse_timer_data]
  rw [h]
  rfl

/-- C9, witness: a non-race telemetry line parses to the all-absent
array. -/
theorem claim9_witness :
    parse_timer_data "READY" = [none, none, none, none] :=
  (claim9_parse_total "READY").2 (by decide)

/-- C10: a heat update mutates only the competitors assigned to a lane
whose time slot is present: the lane assignments and heat number are
untouched, the set (and order) of registered competitor names is
preserved, and the ledger entry of every non-credited competitor is
unchanged. -/
theorem claim10_frame (st : TournamentState) (times : List (Option ℚ)) :
    (update_competitor_stats st times).current_heat_assignments =
      st.current_heat_assignments ∧
    (update_competitor_stats st times).heat_number = st.heat_number ∧
    (update_competitor_stats st times).competitors.map Prod.fst =
      st.competitors.map Prod.fst ∧
    (∀ X : String,
      X ∉ creditedNames { assignments := st.current_heat_assignments,
                          times := times, heatNo := st.heat_number } →
      lookupName X (update_competitor_stats st times).competitors =
        lookupName X st.competitors) := by
  refine ⟨rfl, rfl, ?_, ?_⟩
  · show (applyHeatInput st.competitors
      { assignments := st.current_heat_assignments,
        times := times, heatNo := st.heat_number }).map Prod.fst =
        st.competitors.map Prod.fst
    rw [applyHeatInput]
    exact foldl_stepLane_map_fst _ [1, 2, 3, 4] st.competitors
  · intro X hX
    show lookupName X (applyHeatInput st.competitors
      { assignments := st.current_heat_assignments,
        times := times, heatNo := st.heat_number }) = lookupName X st.competitors
    rw [applyHeatInput]
    exact foldl_stepLane_not_credited _ [1, 2, 3, 4] st.competitors X
      (laneCreditPair_none_of_not_credited _ X hX)

/-- C10, witness: a heat in which only Alice finishes leaves Bob's ledger
entry unchanged. -/
theorem claim10_witness :
    lookupName "Bob"
        (update_competitor_stats exampleState
          [some (mkRat 12345 10000), none, none, none]).competitors =
      lookupName "Bob" exampleState.competitors :=
  (claim10_frame exampleState [some (mkRat 12345 10000), none, none, none]).2.2.2
    "Bob" (by decide)

end ChampTimer
